import Mathlib

/-!
Verification of the harmonoid/localizations translation pipeline.

This file gives a shallow embedding of the two programs of the repository:

* `.github/scripts/translate.py` — the synchronization-and-translation
  pipeline (change detection over a git diff, batched provider calls with
  soft-failure fallback, order-preserving merge, JSON persistence), and
* `.github/ci.py` — the consistency validator cross-checking locale files
  against the canonical `en_US.json` file and the `index.json` manifest
  (the most capable of the two near-duplicate `ci.py` variants in the
  repository, the one whose manifest is a list of `code`/`name` records).

Python `dict`s are embedded as insertion-ordered association lists with
unique keys (`Dict`).  External boundaries (the git subprocess and the
curl call to the provider) are embedded as explicit outcome values that
the pure code consumes exactly as the source does.  Machine strings are
Lean `String`s; all string manipulation is re-implemented over `List
Char` so that every definition evaluates by kernel reduction.
-/

set_option linter.unusedVariables false

/-! ## Ordered dictionaries (Python `dict` semantics) -/

/-- An insertion-ordered string-to-string mapping, the embedding of a
Python `dict[str, str]`.  Python dictionaries have unique keys; lemmas
that depend on uniqueness take a `Nodup` hypothesis on the key list. -/
abbrev Dict := List (String × String)

/-- Key list of an ordered mapping, in iteration order (`d.keys()`). -/
def dkeys {α : Type} (d : List (String × α)) : List String :=
  d.map Prod.fst

/-- Lookup of the first (for unique keys: the only) entry with the given
key; the embedding of `d[k]` / `d.get(k)` returning an optional value. -/
def dget {α : Type} (d : List (String × α)) (k : String) : Option α :=
  match d with
  | [] => none
  | p :: rest => if p.1 = k then some p.2 else dget rest k

/-- Lookup with a default value, the embedding of `d.get(k, default)`. -/
def dgetD {α : Type} (d : List (String × α)) (k : String) (dflt : α) : α :=
  (dget d k).getD dflt

/-- Lookup of the last entry with the given key.  On mappings with unique
keys this agrees with `dget`; it drives the `dictUnion` lemmas. -/
def dgetLast {α : Type} (d : List (String × α)) (k : String) : Option α :=
  match d with
  | [] => none
  | p :: rest =>
    match dgetLast rest k with
    | some v => some v
    | none => if p.1 = k then some p.2 else none

/-- Insertion `d[k] = v` on a Python dictionary: if the key is present its
value is updated in place (position preserved), otherwise the pair is
appended at the end. -/
def dictInsert {α : Type} (d : List (String × α)) (k : String) (v : α) :
    List (String × α) :=
  match d with
  | [] => [(k, v)]
  | p :: rest => if p.1 = k then (k, v) :: rest else p :: dictInsert rest k v

/-- Dictionary overlay `{**a, **b}` (also `a.update(b)`): every entry of
`b` is inserted into `a` in order, so values of `b` win on common keys. -/
def dictUnion {α : Type} (a b : List (String × α)) : List (String × α) :=
  b.foldl (fun acc p => dictInsert acc p.1 p.2) a

/-! ## Character-level string utilities

The Python code uses `str.strip`, `str.split`, `str.startswith` and
f-strings.  These are re-implemented over `List Char` so that concrete
runs reduce inside the kernel. -/

/-- Whitespace test matching Python's `str.strip` default character set
(space, tab, newline, carriage return, vertical tab, form feed). -/
def isWsChar (c : Char) : Bool :=
  c = ' ' || c = '\t' || c = '\n' || c = '\r' ||
    c = Char.ofNat 11 || c = Char.ofNat 12

/-- Drop leading whitespace characters. -/
def skipWs : List Char → List Char
  | [] => []
  | c :: cs => if isWsChar c then skipWs cs else c :: cs

/-- Embedding of Python `s.strip()`. -/
def trimStr (s : String) : String :=
  String.mk ((((s.data.dropWhile isWsChar).reverse).dropWhile isWsChar).reverse)

/-- Embedding of Python `s.split(sep)` for a one-character separator;
always returns at least one piece. -/
def splitOnChar (sep : Char) : List Char → List (List Char)
  | [] => [[]]
  | c :: cs =>
    let r := splitOnChar sep cs
    if c = sep then [] :: r else (c :: r.headD []) :: r.tail

/-- Embedding of Python `s.startswith(pre)`. -/
def strStartsWith (s pre : String) : Bool :=
  pre.data.isPrefixOf s.data

/-- Embedding of Python `s.endswith(suf)`. -/
def strEndsWith (s suf : String) : Bool :=
  suf.data.isSuffixOf s.data

/-- Join a list of lines with newline characters (`'\n'.join(lines)`). -/
def joinWithNewline : List (List Char) → List Char
  | [] => []
  | [x] => x
  | x :: y :: rest => x ++ '\n' :: joinWithNewline (y :: rest)

/-- Opening curly brace character. -/
def lbraceChar : Char := Char.ofNat 123

/-- Closing curly brace character. -/
def rbraceChar : Char := Char.ofNat 125

/-! ## Flat JSON object parsing

`translate.py` feeds the model's reply to `json.loads` and then insists
on a dictionary (`isinstance(translated, dict)`); any decode error and
any non-dictionary value take the same fallback branch.  The embedding
parses flat string-to-string JSON objects and returns `none` in every
other case, which is exactly the union of those two branches.  JSON
string escape sequences are not modelled; no input in this development
uses them. -/

/-- Scan the body of a JSON string up to the closing quote, returning the
content and the remainder after the quote. -/
def scanJString : List Char → Option (List Char × List Char)
  | [] => none
  | c :: cs =>
    if c = '"' then some ([], cs)
    else
      match scanJString cs with
      | some (str, rest) => some (c :: str, rest)
      | none => none

/-- Parse the `"key": "value"` pairs of a flat JSON object after the
opening brace, accumulating into a dictionary (duplicate keys overwrite,
as in `json.loads`).  `fuel` bounds the recursion; the caller supplies
more fuel than the input length. -/
def parsePairs : Nat → List Char → Dict → Option Dict
  | 0, _, _ => none
  | fuel + 1, cs, acc =>
    match skipWs cs with
    | [] => none
    | c :: cs1 =>
      if c = '"' then
        match scanJString cs1 with
        | none => none
        | some (kchars, cs2) =>
          match skipWs cs2 with
          | ':' :: cs3 =>
            match skipWs cs3 with
            | [] => none
            | d :: cs4 =>
              if d = '"' then
                match scanJString cs4 with
                | none => none
                | some (vchars, cs5) =>
                  let acc1 := dictInsert acc (String.mk kchars) (String.mk vchars)
                  match skipWs cs5 with
                  | [] => none
                  | e :: cs6 =>
                    if e = ',' then parsePairs fuel cs6 acc1
                    else if e = rbraceChar then
                      if skipWs cs6 = [] then some acc1 else none
                    else none
              else none
          | _ => none
      else none

/-- Parse a complete flat JSON object (`json.loads` restricted to
string-to-string objects; `none` covers both `JSONDecodeError` and the
`isinstance(translated, dict)` failure, which the source treats
identically). -/
def parseJsonFlatObj (s : String) : Option Dict :=
  match skipWs s.data with
  | [] => none
  | c :: cs =>
    if c = lbraceChar then
      match skipWs cs with
      | [] => none
      | d :: rest =>
        if d = rbraceChar then
          if skipWs rest = [] then some [] else none
        else parsePairs (cs.length + 1) cs []
    else none

/-! ## translate.py — provider boundary and response handling -/

/-- Batch capacity of the Batch Translator (`BATCH_SIZE = 50`). -/
def BATCH_SIZE : Nat := 50

/-- Embedding of `strip_markdown_code_block`: strip the reply, and when it
opens with a markdown fence drop a first line reading ```` ```json ````
or ```` ``` ```` and a last line reading ```` ``` ````, then strip the
joined remainder again. -/
def strip_markdown_code_block (content : String) : String :=
  let content := trimStr content
  if strStartsWith content "```" then
    let lines := (splitOnChar '\n' content.data).map String.mk
    let lines1 :=
      if trimStr (lines.headD "") = "```json" ∨ trimStr (lines.headD "") = "```"
      then lines.drop 1 else lines
    let lines2 :=
      match lines1.getLast? with
      | some lastLine => if trimStr lastLine = "```" then lines1.dropLast else lines1
      | none => lines1
    trimStr (String.mk (joinWithNewline (lines2.map String.data)))
  else content

/-- Outcome of the curl call to the provider, the external boundary of
`call_groq`.  `apiFailure` folds together every branch the source maps to
`None` after the credential check: nonzero curl exit status, timeout, an
empty body, an unparsable body, a body without `choices`, and an empty
message content.  `content s` is the extracted message content. -/
inductive GroqOutcome where
  | apiFailure
  | content (s : String)

/-- Embedding of `call_groq`: with no `GROQ_API_KEY` in the environment it
returns `none` before any network activity; otherwise it returns the
stripped message content when the call produced one, and `none` when the
stripped content is empty or the call failed. -/
def call_groq (apiKey : Option String) (outcome : GroqOutcome) : Option String :=
  match apiKey with
  | none => none
  | some _ =>
    match outcome with
    | .apiFailure => none
    | .content s => if trimStr s = "" then none else some (trimStr s)

/-- Embedding of `translate_keys`: an empty batch returns `{}`; a failed
or empty provider reply returns the original batch (source-language
values); a reply that does not decode to a dictionary returns the
original batch; otherwise every requested key missing from the decoded
dictionary is filled in with its original value, and the (possibly
larger) decoded dictionary is returned. -/
def translate_keys (apiKey : Option String) (outcome : GroqOutcome)
    (keys_dict : Dict) (target_language : String)
    (full_en_data existing_target_data : Dict) : Dict :=
  if keys_dict = [] then []
  else
    match call_groq apiKey outcome with
    | none => keys_dict
    | some response =>
      match parseJsonFlatObj (strip_markdown_code_block response) with
      | none => keys_dict
      | some translated =>
        let missing_keys :=
          (dkeys keys_dict).filter (fun k => !((dkeys translated).contains k))
        missing_keys.foldl (fun acc k => dictInsert acc k (dgetD keys_dict k "")) translated

/-! ## translate.py — batching and merge -/

/-- Fuel-driven worker of `chunkList`; the fuel is at least the length of
the list at every call, so the middle branch is never taken. -/
def chunkListGo (B : Nat) : Nat → List String → List (List String)
  | _, [] => []
  | 0, _ :: _ => []
  | fuel + 1, x :: xs => (x :: xs.take (B - 1)) :: chunkListGo B fuel (xs.drop (B - 1))

/-- Partition of the pending key list into consecutive batches of at most
`B` keys, the embedding of the loop `for i in range(0, len(keys),
BATCH_SIZE): batch_keys = keys[i:i + BATCH_SIZE]`. -/
def chunkList (B : Nat) (l : List String) : List (List String) :=
  chunkListGo B l.length l

/-- Embedding of the merge step of `translate_language`:
`final_data = {**existing_data, **translated}` followed by
`ordered_data = {k: final_data.get(k, en_data[k]) for k in en_data.keys()}`. -/
def mergeStep (existing_data translated en_data : Dict) : Dict :=
  let final_data := dictUnion existing_data translated
  (dkeys en_data).map (fun k => (k, dgetD final_data k (dgetD en_data k "")))

/-- Embedding of `translate_language`: an empty work list returns without
saving (`none`); otherwise the pending keys are cut into batches, each
batch is translated with the provider outcome for its index, the batch
results are accumulated with `translated.update(batch_translated)`, and
the merged, canonically re-keyed mapping that `save_json` persists is
returned. -/
def translate_language (apiKey : Option String) (provider : Nat → GroqOutcome)
    (lang_name : String) (keys_to_translate en_data existing_data : Dict) :
    Option Dict :=
  if keys_to_translate = [] then none
  else
    let keys := dkeys keys_to_translate
    let batchLists := chunkList BATCH_SIZE keys
    let translated := batchLists.enum.foldl
      (fun acc p =>
        let batch_dict := p.2.map (fun k => (k, dgetD keys_to_translate k ""))
        dictUnion acc (translate_keys apiKey (provider p.1) batch_dict lang_name
          en_data existing_data)) []
    some (mergeStep existing_data translated en_data)

/-- Embedding of `keys_to_translate = {k: en_data[k] for k in changed_keys
if k in en_data}` from `main`.  `changed_iter` is the iteration sequence
of the Python set `changed_keys`; the iteration order of a Python set is
hash-based and unspecified, so it is a free parameter here. -/
def keys_to_translate_of (changed_iter : List String) (en_data : Dict) : Dict :=
  changed_iter.foldl
    (fun acc k =>
      match dget en_data k with
      | some v => acc ++ [(k, v)]
      | none => acc) []

/-! ## translate.py — change detection -/

/-- Match one diff line against the pattern `^\+\s*"([^"]+)"\s*:` of
`get_changed_keys`: a line starting with `+`, then optional whitespace, a
double-quoted nonempty key without inner quotes, optional whitespace and
a colon.  Returns the captured key. -/
def matchAddedKeyLine (line : String) : Option String :=
  match line.data with
  | [] => none
  | c :: rest =>
    if c = '+' then
      match skipWs rest with
      | [] => none
      | q :: cs =>
        if q = '"' then
          match scanJString cs with
          | none => none
          | some (kchars, cs2) =>
            if kchars = [] then none
            else
              match skipWs cs2 with
              | ':' :: _ => some (String.mk kchars)
              | _ => none
        else none
    else none

/-- Add a key to the changed-key accumulator (`changed_keys.add(key)`),
keeping one occurrence per key. -/
def setAdd (s : List String) (k : String) : List String :=
  if k ∈ s then s else s ++ [k]

/-- Extract the changed keys from the diff text, scanning it line by
line with the added-key pattern. -/
def extractChangedKeys (stdout : String) : List String :=
  ((splitOnChar '\n' stdout.data).map String.mk).foldl
    (fun acc line =>
      match matchAddedKeyLine line with
      | some k => setAdd acc k
      | none => acc) []

/-- Outcome of the `git diff HEAD~1 HEAD -- <en_file>` subprocess, the
external boundary of `get_changed_keys`: a completed run with its exit
code and captured streams, a timeout, or any other raised exception. -/
inductive GitOutcome where
  | run (returncode : Int) (stdout stderr : String)
  | timeout
  | exc (msg : String)

/-- Embedding of `get_changed_keys`: a nonzero git exit code, a timeout
or an exception aborts the run with exit status 1 (`sys.exit(1)`); an
empty (whitespace-only) diff yields the empty change set; otherwise the
added-key pattern is applied to the diff text. -/
def get_changed_keys (o : GitOutcome) : Except Nat (List String) :=
  match o with
  | .run rc stdout _ =>
    if rc ≠ 0 then .error 1
    else if trimStr stdout = "" then .ok []
    else .ok (extractChangedKeys stdout)
  | .timeout => .error 1
  | .exc _ => .error 1

/-! ## translate.py — persistence (`save_json`)

`save_json` is observable only through the file system, so it is embedded
as the trace of file-system operations it performs, together with a small
operational model of those operations. -/

/-- A file-system operation: recursive parent-directory creation, opening
a file for writing (which truncates it), appending data to an open file,
and renaming. -/
inductive FsOp where
  | mkdirParents (path : String)
  | openTrunc (path : String)
  | write (path : String) (data : String)
  | rename (src dst : String)

/-- Serialization performed by `json.dump(data, f, ensure_ascii=False,
indent=2)` on a flat string-to-string dictionary (modulo JSON string
escaping, which no input here requires). -/
def jsonDump (data : Dict) : String :=
  if data = [] then "\x7b\x7d"
  else
    "\x7b\n" ++
      String.intercalate ",\n"
        (data.map (fun p => "  \"" ++ p.1 ++ "\": \"" ++ p.2 ++ "\"")) ++
      "\n\x7d"

/-- Embedding of `save_json`: create the parent directories, open the
destination path for writing (truncating any previous content), write the
serialized mapping, then write the trailing newline.  The destination is
written in place; no temporary file and no rename are involved. -/
def save_json_trace (file_path : String) (data : Dict) : List FsOp :=
  [FsOp.mkdirParents file_path,
   FsOp.openTrunc file_path,
   FsOp.write file_path (jsonDump data),
   FsOp.write file_path "\n"]

/-- Effect of one file-system operation on a file-contents map. -/
def applyOp (fs : String → Option String) (op : FsOp) : String → Option String :=
  match op with
  | .mkdirParents _ => fs
  | .openTrunc p => fun q => if q = p then some "" else fs q
  | .write p d => fun q => if q = p then some ((fs p).getD "" ++ d) else fs q
  | .rename src dst =>
    fun q => if q = dst then fs src else if q = src then none else fs q

/-- Effect of a sequence of file-system operations. -/
def applyOps (fs : String → Option String) (ops : List FsOp) :
    String → Option String :=
  ops.foldl applyOp fs

/-- Formalisation of the spec's atomicity requirement for the entry
store: after any prefix of the operation sequence (a crash point), the
file at `path` holds either its original content or the final content —
never a partially written state. -/
def crashSafeWrite (init : String → Option String) (ops : List FsOp)
    (path : String) : Prop :=
  ∀ n, applyOps init (ops.take n) path = init path ∨
    applyOps init (ops.take n) path = applyOps init ops path

/-! ## ci.py — the Consistency Validator -/

/-- Stem of a file name before its first dot (`file.split(".")[0]`). -/
def stemOf (s : String) : String :=
  String.mk ((splitOnChar '.' s.data).headD [])

/-- Embedding of the `__main__` block of `.github/ci.py`.  `disk` is the
listing of the localizations directory (file name paired with its parsed
contents, in enumeration order); `index` is the parsed `index.json`
manifest, a list of `code`/`name` records.  Returns `none` when
`en_US.json` is absent (the script dies on an unhandled
`FileNotFoundError`), and otherwise the printed diagnostics — missing
keys per file, then manifest codes without a file, then files without a
manifest record — together with the success flag (`sys.exit(1)` is
reached exactly when the flag is false).  Diagnostics use the bare file
name where the first check of the source prints the opened path. -/
def ciValidator (disk : List (String × Dict)) (index : List (String × String)) :
    Option (List String × Bool) :=
  match dget disk "en_US.json" with
  | none => none
  | some en_map =>
    let ks := dkeys en_map
    let d1 := (disk.filter (fun e => strEndsWith e.1 ".json")).flatMap
      (fun e => (ks.filter (fun k => !((dkeys e.2).contains k))).map
        (fun k => e.1 ++ ": " ++ k ++ " not found."))
    let codes := dkeys index
    let d2 := (index.filter
        (fun l => !((disk.map Prod.fst).contains (l.1 ++ ".json")))).map
      (fun l => l.1 ++ ".json not found.")
    let d3 := ((disk.map Prod.fst).filter
        (fun f => strEndsWith f ".json" && !(codes.contains (stemOf f)))).map
      (fun f => f ++ " not found in index.json.")
    let diags := d1 ++ d2 ++ d3
    some (diags, diags.isEmpty)

/-! ## Dictionary lemmas -/

theorem dkeys_nil {α : Type} : dkeys ([] : List (String × α)) = [] := rfl

theorem dkeys_cons {α : Type} (p : String × α) (d : List (String × α)) :
    dkeys (p :: d) = p.1 :: dkeys d := rfl

theorem dget_eq_none_iff {α : Type} (d : List (String × α)) (k : String) :
    dget d k = none ↔ k ∉ dkeys d := by
  induction d with
  | nil => simp [dget, dkeys]
  | cons p rest ih =>
    by_cases h : p.1 = k
    · simp [dget, dkeys_cons, h]
    · simp [dget, dkeys_cons, h, ih, Ne.symm h]

theorem dget_mem {α : Type} {d : List (String × α)} {k : String} {v : α}
    (h : dget d k = some v) : (k, v) ∈ d := by
  induction d with
  | nil => simp [dget] at h
  | cons p rest ih =>
    by_cases hp : p.1 = k
    · simp [dget, hp] at h
      obtain ⟨a, b⟩ := p
      simp only at hp h
      subst hp; subst h
      exact List.mem_cons_self _ _
    · rw [dget, if_neg hp] at h
      exact List.mem_cons_of_mem _ (ih h)

theorem dget_isSome_of_mem {α : Type} {d : List (String × α)} {k : String}
    (h : k ∈ dkeys d) : ∃ v, dget d k = some v := by
  cases hv : dget d k with
  | none => exact absurd ((dget_eq_none_iff d k).mp hv) (not_not_intro h)
  | some v => exact ⟨v, rfl⟩

theorem dget_ne_nil {α : Type} {d : List (String × α)} {k : String} {v : α}
    (h : dget d k = some v) : d ≠ [] := by
  intro hd
  subst hd
  simp [dget] at h

theorem dgetLast_mem {α : Type} {d : List (String × α)} {k : String} {v : α}
    (h : dgetLast d k = some v) : (k, v) ∈ d := by
  induction d with
  | nil => simp [dgetLast] at h
  | cons p rest ih =>
    rw [dgetLast] at h
    cases hr : dgetLast rest k with
    | some w =>
      rw [hr] at h
      cases h
      exact List.mem_cons_of_mem _ (ih hr)
    | none =>
      rw [hr] at h
      by_cases hp : p.1 = k
      · rw [if_pos hp] at h
        cases h
        obtain ⟨a, b⟩ := p
        simp only at hp
        subst hp
        exact List.mem_cons_self _ _
      · rw [if_neg hp] at h
        cases h

theorem dget_of_mem_nodup {α : Type} {d : List (String × α)} {p : String × α}
    (hnd : (dkeys d).Nodup) (hp : p ∈ d) : dget d p.1 = some p.2 := by
  induction d with
  | nil => simp at hp
  | cons q rest ih =>
    rw [dkeys_cons, List.nodup_cons] at hnd
    obtain ⟨hq, hrest⟩ := hnd
    rcases List.mem_cons.mp hp with h | h
    · subst h
      simp [dget]
    · have hne : q.1 ≠ p.1 := by
        intro he
        exact hq (he ▸ List.mem_map_of_mem Prod.fst h)
      rw [dget, if_neg hne]
      exact ih hrest h

theorem dget_dictInsert {α : Type} (d : List (String × α)) (k j : String) (v : α) :
    dget (dictInsert d k v) j = if j = k then some v else dget d j := by
  induction d with
  | nil =>
    by_cases h : j = k
    · simp [dictInsert, dget, h]
    · simp [dictInsert, dget, h, Ne.symm h]
  | cons p rest ih =>
    by_cases hp : p.1 = k
    · by_cases hj : j = k
      · rw [dictInsert, if_pos hp, if_pos hj, dget, if_pos (by rw [hj])]
      · have hkj : ¬((k, v).1 = j) := fun h => hj h.symm
        rw [dictInsert, if_pos hp, if_neg hj, dget, if_neg hkj, dget,
          if_neg (fun h => hj ((hp ▸ h : (k : String) = j)).symm)]
    · by_cases hj : p.1 = j
      · have hjk : ¬(j = k) := fun h => hp (hj.trans h)
        rw [dictInsert, if_neg hp, if_neg hjk, dget, if_pos hj, dget, if_pos hj]
      · rw [dictInsert, if_neg hp, dget, if_neg hj, ih]
        by_cases h : j = k
        · rw [if_pos h, if_pos h]
        · rw [if_neg h, if_neg h, dget, if_neg hj]

theorem mem_dictInsert {α : Type} {d : List (String × α)} {k : String} {v : α}
    {q : String × α} (h : q ∈ dictInsert d k v) : q = (k, v) ∨ q ∈ d := by
  induction d with
  | nil => simp [dictInsert] at h; exact Or.inl h
  | cons p rest ih =>
    by_cases hp : p.1 = k
    · rw [dictInsert, if_pos hp] at h
      rcases List.mem_cons.mp h with h | h
      · exact Or.inl h
      · exact Or.inr (List.mem_cons_of_mem _ h)
    · rw [dictInsert, if_neg hp] at h
      rcases List.mem_cons.mp h with h | h
      · exact Or.inr (h ▸ List.mem_cons_self _ _)
      · rcases ih h with h | h
        · exact Or.inl h
        · exact Or.inr (List.mem_cons_of_mem _ h)

theorem mem_dkeys_dictInsert {α : Type} {d : List (String × α)} {k j : String}
    {v : α} (h : j ∈ dkeys (dictInsert d k v)) : j = k ∨ j ∈ dkeys d := by
  obtain ⟨w, hw⟩ := dget_isSome_of_mem h
  rw [dget_dictInsert] at hw
  by_cases hj : j = k
  · exact Or.inl hj
  · rw [if_neg hj] at hw
    right
    by_contra hc
    rw [(dget_eq_none_iff d j).mpr hc] at hw
    cases hw

theorem dkeys_dictInsert_of_mem {α : Type} {d : List (String × α)} {j : String}
    (k : String) (v : α) (h : j ∈ dkeys d ∨ j = k) :
    j ∈ dkeys (dictInsert d k v) := by
  by_contra hc
  have h0 : dget (dictInsert d k v) j = none := (dget_eq_none_iff _ _).mpr hc
  rw [dget_dictInsert] at h0
  by_cases hj : j = k
  · rw [if_pos hj] at h0
    cases h0
  · rw [if_neg hj] at h0
    rcases h with h | h
    · exact absurd h ((dget_eq_none_iff d j).mp h0)
    · exact hj h

theorem nodup_dkeys_dictInsert {α : Type} {d : List (String × α)} {k : String}
    {v : α} (hnd : (dkeys d).Nodup) : (dkeys (dictInsert d k v)).Nodup := by
  induction d with
  | nil => simp [dictInsert, dkeys]
  | cons p rest ih =>
    rw [dkeys_cons, List.nodup_cons] at hnd
    obtain ⟨hp1, hrest⟩ := hnd
    by_cases hp : p.1 = k
    · rw [dictInsert, if_pos hp, dkeys_cons, List.nodup_cons]
      exact ⟨by simpa [← hp] using hp1, hrest⟩
    · rw [dictInsert, if_neg hp, dkeys_cons, List.nodup_cons]
      refine ⟨?_, ih hrest⟩
      intro hmem
      rcases mem_dkeys_dictInsert hmem with h | h
      · exact hp h
      · exact hp1 h

theorem dget_dictUnion {α : Type} (b a : List (String × α)) (k : String) :
    dget (dictUnion a b) k =
      match dgetLast b k with
      | some v => some v
      | none => dget a k := by
  induction b generalizing a with
  | nil => simp [dictUnion, dgetLast]
  | cons p rest ih =>
    have hstep : dictUnion a (p :: rest) = dictUnion (dictInsert a p.1 p.2) rest := rfl
    rw [hstep, ih, dgetLast]
    cases hr : dgetLast rest k with
    | some v => rfl
    | none =>
      simp only
      rw [dget_dictInsert]
      by_cases h : p.1 = k
      · rw [if_pos (h.symm), if_pos h]
      · rw [if_neg (fun he => h he.symm), if_neg h]

theorem mem_dictUnion {α : Type} {a b : List (String × α)} {q : String × α}
    (h : q ∈ dictUnion a b) : q ∈ a ∨ q ∈ b := by
  induction b generalizing a with
  | nil => exact Or.inl h
  | cons p rest ih =>
    have hstep : dictUnion a (p :: rest) = dictUnion (dictInsert a p.1 p.2) rest := rfl
    rw [hstep] at h
    rcases ih h with h' | h'
    · rcases mem_dictInsert h' with h'' | h''
      · exact Or.inr (List.mem_cons.mpr (Or.inl (by rw [h''])))
      · exact Or.inl h''
    · exact Or.inr (List.mem_cons_of_mem _ h')

theorem dgetLast_eq_dget_of_nodup {α : Type} {d : List (String × α)}
    (hnd : (dkeys d).Nodup) (k : String) : dgetLast d k = dget d k := by
  induction d with
  | nil => rfl
  | cons p rest ih =>
    rw [dkeys_cons, List.nodup_cons] at hnd
    obtain ⟨hp1, hrest⟩ := hnd
    rw [dgetLast, dget, ih hrest]
    by_cases hp : p.1 = k
    · have : dget rest k = none := by
        rw [dget_eq_none_iff]
        exact fun hmem => hp1 (hp ▸ hmem)
      rw [this, if_pos hp]
    · cases hr : dget rest k with
      | some v => simp [hp]
      | none => simp [hp]

theorem dget_foldl_dictInsert_of_not_mem {α : Type} (f : String → α)
    {l : List String} {j : String} (h : j ∉ l) (d : List (String × α)) :
    dget (l.foldl (fun acc x => dictInsert acc x (f x)) d) j = dget d j := by
  induction l generalizing d with
  | nil => rfl
  | cons x rest ih =>
    have hx : j ≠ x := fun he => h (he ▸ List.mem_cons_self _ _)
    have hrest : j ∉ rest := fun hm => h (List.mem_cons_of_mem _ hm)
    rw [List.foldl_cons, ih hrest, dget_dictInsert, if_neg hx]

theorem dget_foldl_dictInsert_of_mem {α : Type} (f : String → α)
    {l : List String} {j : String} (h : j ∈ l) (d : List (String × α)) :
    dget (l.foldl (fun acc x => dictInsert acc x (f x)) d) j = some (f j) := by
  induction l generalizing d with
  | nil => simp at h
  | cons x rest ih =>
    rw [List.foldl_cons]
    by_cases hr : j ∈ rest
    · exact ih hr _
    · have hx : j = x := by
        rcases List.mem_cons.mp h with h' | h'
        · exact h'
        · exact absurd h' hr
      rw [dget_foldl_dictInsert_of_not_mem f hr, dget_dictInsert, if_pos hx, hx]

theorem dkeys_foldl_dictInsert_of_mem_base {α : Type} (f : String → α)
    (l : List String) {j : String} {d : List (String × α)} (h : j ∈ dkeys d) :
    j ∈ dkeys (l.foldl (fun acc x => dictInsert acc x (f x)) d) := by
  induction l generalizing d with
  | nil => exact h
  | cons x rest ih =>
    rw [List.foldl_cons]
    exact ih (dkeys_dictInsert_of_mem x (f x) (Or.inl h))

theorem nodup_dkeys_foldl_dictInsert {α : Type} (f : String → α)
    (l : List String) {d : List (String × α)} (hnd : (dkeys d).Nodup) :
    (dkeys (l.foldl (fun acc x => dictInsert acc x (f x)) d)).Nodup := by
  induction l generalizing d with
  | nil => exact hnd
  | cons x rest ih =>
    rw [List.foldl_cons]
    exact ih (nodup_dkeys_dictInsert hnd)

theorem mem_foldl_dictUnion {α β : Type} (f : β → List (String × α))
    {L : List β} {init : List (String × α)} {q : String × α}
    (h : q ∈ L.foldl (fun acc x => dictUnion acc (f x)) init) :
    q ∈ init ∨ ∃ x ∈ L, q ∈ f x := by
  induction L generalizing init with
  | nil => exact Or.inl h
  | cons x rest ih =>
    rw [List.foldl_cons] at h
    rcases ih h with h' | h'
    · rcases mem_dictUnion h' with h'' | h''
      · exact Or.inl h''
      · exact Or.inr ⟨x, List.mem_cons_self _ _, h''⟩
    · obtain ⟨y, hy, hq⟩ := h'
      exact Or.inr ⟨y, List.mem_cons_of_mem _ hy, hq⟩

theorem dget_map_keys {α : Type} (g : String → α) {ks : List String}
    {j : String} (h : j ∈ ks) :
    dget (ks.map (fun k => (k, g k))) j = some (g j) := by
  induction ks with
  | nil => simp at h
  | cons x rest ih =>
    by_cases hx : x = j
    · rw [List.map_cons, dget, if_pos hx, hx]
    · have hr : j ∈ rest := by
        rcases List.mem_cons.mp h with h' | h'
        · exact absurd h'.symm hx
        · exact h'
      rw [List.map_cons, dget, if_neg hx]
      exact ih hr

theorem map_dkeys_eq_self {α : Type} {d : List (String × α)} (g : String → α)
    (h : ∀ p ∈ d, g p.1 = p.2) :
    (dkeys d).map (fun k => (k, g k)) = d := by
  induction d with
  | nil => rfl
  | cons p rest ih =>
    rw [dkeys_cons, List.map_cons]
    have hp := h p (List.mem_cons_self _ _)
    have hrest : ∀ q ∈ rest, g q.1 = q.2 := fun q hq => h q (List.mem_cons_of_mem _ hq)
    rw [ih hrest]
    obtain ⟨a, b⟩ := p
    simp only at hp
    rw [hp]

theorem contains_eq_false_of_not_mem {l : List String} {a : String}
    (h : a ∉ l) : l.contains a = false := by
  simp [h]

theorem contains_eq_true_of_mem {l : List String} {a : String}
    (h : a ∈ l) : l.contains a = true := by
  simp [h]

/-! ## Batching lemmas -/

theorem chunkListGo_flatten (B : Nat) :
    ∀ fuel l, l.length ≤ fuel → (chunkListGo B fuel l).flatten = l := by
  intro fuel
  induction fuel with
  | zero =>
    intro l hl
    cases l with
    | nil => rfl
    | cons x xs => simp at hl
  | succ fuel ih =>
    intro l hl
    cases l with
    | nil => rfl
    | cons x xs =>
      rw [chunkListGo, List.flatten_cons]
      have hlen : (xs.drop (B - 1)).length ≤ fuel := by
        rw [List.length_drop]
        have : xs.length ≤ fuel := by simpa using Nat.lt_succ_iff.mp (Nat.lt_of_lt_of_le (Nat.lt_succ_self _) hl)
        omega
      rw [ih _ hlen, List.cons_append, List.take_append_drop]

theorem chunkList_flatten (B : Nat) (l : List String) :
    (chunkList B l).flatten = l :=
  chunkListGo_flatten B l.length l (Nat.le_refl _)

theorem chunkListGo_length (B : Nat) (hB : 0 < B) :
    ∀ fuel l, l.length ≤ fuel →
      (chunkListGo B fuel l).length = (l.length + B - 1) / B := by
  intro fuel
  induction fuel with
  | zero =>
    intro l hl
    cases l with
    | nil =>
      show 0 = (0 + B - 1) / B
      rw [Nat.div_eq_of_lt (by omega)]
    | cons x xs => simp at hl
  | succ fuel ih =>
    intro l hl
    cases l with
    | nil =>
      show 0 = (0 + B - 1) / B
      rw [Nat.div_eq_of_lt (by omega)]
    | cons x xs =>
      rw [chunkListGo, List.length_cons]
      have hlen : (xs.drop (B - 1)).length ≤ fuel := by
        rw [List.length_drop]
        have : xs.length ≤ fuel := by simpa using Nat.lt_succ_iff.mp (Nat.lt_of_lt_of_le (Nat.lt_succ_self _) hl)
        omega
      rw [ih _ hlen, List.length_drop, List.length_cons]
      have hdrop : xs.length - (B - 1) = xs.length + 1 - B := by omega
      rw [hdrop]
      by_cases hnB : xs.length + 1 ≤ B
      · have h1 : xs.length + 1 - B = 0 := by omega
        rw [h1, Nat.div_eq_of_lt (by omega)]
        have := Nat.div_eq_of_lt_le
          (by omega : 1 * B ≤ xs.length + 1 + B - 1)
          (by omega : xs.length + 1 + B - 1 < (1 + 1) * B)
        omega
      · have h2 : xs.length + 1 - B + B - 1 = xs.length := by omega
        rw [h2]
        have h3 : xs.length + 1 + B - 1 = xs.length + B := by omega
        rw [h3, Nat.add_div_right _ hB]

theorem chunkList_length (B : Nat) (hB : 0 < B) (l : List String) :
    (chunkList B l).length = (l.length + B - 1) / B :=
  chunkListGo_length B hB l.length l (Nat.le_refl _)

theorem chunkList_pairwise_disjoint (B : Nat) {l : List String}
    (hnd : l.Nodup) : (chunkList B l).Pairwise List.Disjoint := by
  have hflat : (chunkList B l).flatten.Nodup := by
    rw [chunkList_flatten]
    exact hnd
  exact (List.nodup_flatten.mp hflat).2

/-! ## Program-level helper lemmas -/

theorem isEmpty_false_of_mem {α : Type} {l : List α} {a : α} (h : a ∈ l) :
    l.isEmpty = false := by
  cases l with
  | nil => cases h
  | cons x xs => rfl

/-- Lookup in the merge result at any canonical key is the overlay lookup
with canonical fallback. -/
theorem dget_mergeStep (existing_data translated en_data : Dict) {k : String}
    (hk : k ∈ dkeys en_data) :
    dget (mergeStep existing_data translated en_data) k =
      some (dgetD (dictUnion existing_data translated) k (dgetD en_data k "")) := by
  unfold mergeStep
  exact dget_map_keys _ hk

/-- A failed provider call makes `translate_keys` return its input batch
unchanged, whether or not an API key is configured. -/
theorem translate_keys_apiFailure (apiKey : Option String) (keys_dict : Dict)
    (target_language : String) (full_en_data existing_target_data : Dict) :
    translate_keys apiKey GroqOutcome.apiFailure keys_dict target_language
      full_en_data existing_target_data = keys_dict := by
  have hcg : call_groq apiKey GroqOutcome.apiFailure = none := by
    cases apiKey <;> rfl
  unfold translate_keys
  rw [hcg]
  by_cases h : keys_dict = []
  · rw [if_pos h, h]
  · rw [if_neg h]

/-- Unfolding of `translate_language` on a nonempty work list. -/
theorem translate_language_eq (apiKey : Option String)
    (provider : Nat → GroqOutcome) (lang_name : String)
    (keys_to_translate en_data existing_data : Dict)
    (hne : keys_to_translate ≠ []) :
    translate_language apiKey provider lang_name keys_to_translate en_data
        existing_data =
      some (mergeStep existing_data
        ((chunkList BATCH_SIZE (dkeys keys_to_translate)).enum.foldl
          (fun acc p => dictUnion acc (translate_keys apiKey (provider p.1)
            (p.2.map (fun k => (k, dgetD keys_to_translate k "")))
            lang_name en_data existing_data)) [])
        en_data) := by
  unfold translate_language
  rw [if_neg hne]

/-- Merging any overlay whose entries all agree with the canonical data
onto an empty existing mapping reproduces the canonical data exactly. -/
theorem mergeStep_empty_existing {translated en_data : Dict}
    (htr : ∀ q ∈ translated, dget en_data q.1 = some q.2)
    (hnd : (dkeys en_data).Nodup) :
    mergeStep [] translated en_data = en_data := by
  unfold mergeStep
  apply map_dkeys_eq_self
  intro p hp
  have hen : dget en_data p.1 = some p.2 := dget_of_mem_nodup hnd hp
  rw [dgetD, dget_dictUnion]
  cases hLast : dgetLast translated p.1 with
  | none =>
    rw [dget]
    rw [dgetD, hen]
    rfl
  | some w =>
    have hw : dget en_data p.1 = some w := htr (p.1, w) (dgetLast_mem hLast)
    rw [hen] at hw
    cases hw
    rfl

/-! ## Claims -/

/-- Claim C1: for every canonical entry set, every existing locale entry
set and every translated mapping, the merged locale mapping produced by
the merge step of `translate_language` has a key sequence identical in
membership and order to the canonical key sequence, regardless of the
contents of the existing or translated mappings. -/
theorem C1_merge_key_order (existing_data translated en_data : Dict) :
    dkeys (mergeStep existing_data translated en_data) = dkeys en_data := by
  unfold mergeStep dkeys
  rw [List.map_map]
  simp

/-- Claim C2, counterexample: with `GROQ_API_KEY` absent from the
environment, a batch is answered by returning its original
source-language values — a soft per-batch fallback — even though the
provider would have produced usable content; the run is not aborted
(`translate_keys` returns normally). -/
theorem C2_counterexample :
    translate_keys none (GroqOutcome.content "\x7b \"a\": \"X\" \x7d")
      [("a", "Hello")] "French" [("a", "Hello")] [] = [("a", "Hello")] := by
  rfl

/-- Claim C2, amended: if the environment variable supplying the provider
API key is absent, `call_groq` reports the missing credential and returns
`None`, and every batch is then treated as a soft per-batch failure that
falls back to the source-language values; the run continues instead of
aborting. -/
theorem C2_amended (outcome : GroqOutcome) (keys_dict : Dict)
    (target_language : String) (full_en_data existing_target_data : Dict) :
    call_groq none outcome = none ∧
    translate_keys none outcome keys_dict target_language full_en_data
      existing_target_data = keys_dict := by
  constructor
  · rfl
  · unfold translate_keys
    by_cases h : keys_dict = []
    · rw [if_pos h, h]
    · rw [if_neg h]
      rfl

/-- Claim C3, counterexample: `save_json` is not atomic with respect to
partial-content corruption — at the crash point right after the
destination file has been opened for writing (and thereby truncated), the
file holds neither its original content nor the final content. -/
theorem C3_counterexample :
    ¬ crashSafeWrite (fun q => if q = "fr_FR.json" then some "old" else none)
        (save_json_trace "fr_FR.json" [("a", "Hello")]) "fr_FR.json" := by
  intro h
  rcases h 2 with h' | h'
  · exact absurd h' (by decide)
  · exact absurd h' (by decide)

/-- Claim C3, amended: `save_json` writes directly to the destination
path — truncate, write the serialized mapping, write the newline — with
no temporary file and no rename, so a crash between the truncation and
the final write leaves a truncated (here: empty) file at the destination;
the completed sequence does leave the serialized mapping with a trailing
newline. -/
theorem C3_amended (init : String → Option String) (file_path : String)
    (data : Dict) :
    applyOps init (save_json_trace file_path data) file_path
        = some (jsonDump data ++ "\n") ∧
    applyOps init ((save_json_trace file_path data).take 2) file_path
        = some "" ∧
    (save_json_trace file_path data).all
      (fun op => match op with | FsOp.rename _ _ => false | _ => true) = true := by
  refine ⟨?_, ?_, rfl⟩
  · simp [applyOps, save_json_trace, applyOp]
  · simp [applyOps, save_json_trace, applyOp]

/-- Claim C5, counterexample: the batching step preserves the iteration
order of the pending-key collection, not canonical order.  The pending
mapping is built by iterating the Python set of changed keys, whose
order is unspecified; with iteration sequence `["b", "a"]` over the
canonical mapping `{"a": "A", "b": "B"}` the single batch is
`["b", "a"]`, while the canonical-order arrangement of those keys is
`["a", "b"]`. -/
theorem C5_counterexample :
    keys_to_translate_of ["b", "a"] [("a", "A"), ("b", "B")]
        = [("b", "B"), ("a", "A")] ∧
    chunkList BATCH_SIZE
        (dkeys (keys_to_translate_of ["b", "a"] [("a", "A"), ("b", "B")]))
        = [["b", "a"]] ∧
    (dkeys ([("a", "A"), ("b", "B")] : Dict)).filter
        (fun k => (["b", "a"] : List String).contains k) = ["a", "b"] ∧
    (["b", "a"] : List String) ≠ ["a", "b"] := by
  exact ⟨rfl, rfl, rfl, by decide⟩

/-- Claim C5, amended: for every pending-key sequence of size N with
distinct keys and every batch capacity B > 0, the batching step produces
exactly ceil(N/B) batches whose key-sets are pairwise disjoint and whose
concatenation equals the pending-key sequence (so their union is the
pending-key set and the pending sequence's order — the iteration order of
the changed-key set, not necessarily canonical order — is preserved
within each batch). -/
theorem C5_amended (B : Nat) (hB : 0 < B) (pending : List String)
    (hnd : pending.Nodup) :
    (chunkList B pending).length = (pending.length + B - 1) / B ∧
    (chunkList B pending).flatten = pending ∧
    (chunkList B pending).Pairwise List.Disjoint :=
  ⟨chunkList_length B hB pending, chunkList_flatten B pending,
   chunkList_pairwise_disjoint B hnd⟩

/-- Claim C5, witness: capacity 2 over three distinct pending keys gives
ceil(3/2) = 2 batches concatenating back to the pending sequence. -/
theorem C5_witness :
    0 < 2 ∧ (["a", "b", "c"] : List String).Nodup ∧
    (chunkList 2 ["a", "b", "c"]).length = (3 + 2 - 1) / 2 ∧
    (chunkList 2 ["a", "b", "c"]).flatten = ["a", "b", "c"] :=
  ⟨by decide, by decide, (C5_amended 2 (by decide) ["a", "b", "c"] (by decide)).1,
   (C5_amended 2 (by decide) ["a", "b", "c"] (by decide)).2.1⟩

/-- Claim C8: whenever the revision-control diff query fails (nonzero
exit code, timeout or exception), the change detector terminates the run
fatally with exit status 1 and in particular never yields an empty change
set, whereas a successful query with empty (whitespace-only) diff output
yields the empty change set without error. -/
theorem C8_change_detector (rc : Int) (stdout stderr msg : String) :
    (rc ≠ 0 → get_changed_keys (GitOutcome.run rc stdout stderr) = .error 1) ∧
    (rc ≠ 0 → get_changed_keys (GitOutcome.run rc stdout stderr) ≠ .ok []) ∧
    get_changed_keys GitOutcome.timeout = .error 1 ∧
    get_changed_keys (GitOutcome.exc msg) = .error 1 ∧
    (trimStr stdout = "" → get_changed_keys (GitOutcome.run 0 stdout stderr) = .ok []) := by
  refine ⟨?_, ?_, rfl, rfl, ?_⟩
  · intro h
    unfold get_changed_keys
    dsimp only
    rw [if_pos h]
  · intro h hok
    unfold get_changed_keys at hok
    dsimp only at hok
    rw [if_pos h] at hok
    cases hok
  · intro h
    unfold get_changed_keys
    dsimp only
    rw [if_neg (by simp), if_pos h]

/-- Claim C8, witness: a failing git run (exit code 1) aborts with error
status 1 and is not an empty change set; a clean run with whitespace-only
output yields the empty change set. -/
theorem C8_witness :
    get_changed_keys (GitOutcome.run 1 "boom" "err") = .error 1 ∧
    get_changed_keys (GitOutcome.run 1 "boom" "err") ≠ .ok [] ∧
    get_changed_keys (GitOutcome.run 0 "  " "") = .ok [] :=
  ⟨(C8_change_detector 1 "boom" "err" "m").1 (by decide),
   (C8_change_detector 1 "boom" "err" "m").2.1 (by decide),
   (C8_change_detector 0 "  " "" "m").2.2.2.2 (by decide)⟩

/-- Claim C4, counterexample: with every provider call failing but a
nonempty existing locale, the merged output retains the existing
translation for the unchanged key and therefore does not equal the
canonical entry set: canonical `{"a": "Hello", "b": "World"}`, existing
`{"a": "Bonjour"}`, changed key `b` merge to
`{"a": "Bonjour", "b": "World"}`. -/
theorem C4_counterexample :
    translate_language (some "key") (fun _ => GroqOutcome.apiFailure) "French"
        [("b", "World")] [("a", "Hello"), ("b", "World")] [("a", "Bonjour")]
      = some [("a", "Bonjour"), ("b", "World")] ∧
    ([("a", "Bonjour"), ("b", "World")] : Dict) ≠ [("a", "Hello"), ("b", "World")] :=
  ⟨rfl, by decide⟩

/-- Claim C4, amended: if every provider call fails and the existing
locale mapping is empty (as in the cited scenario), the merged output
equals the canonical entry set exactly — every key present with its
source-language value.  (With a nonempty existing mapping, keys outside
the pending set keep their existing translations instead.) -/
theorem C4_amended (apiKey : Option String) (lang_name : String)
    (keys_to_translate en_data : Dict)
    (hne : keys_to_translate ≠ [])
    (hsub : ∀ p ∈ keys_to_translate, dget en_data p.1 = some p.2)
    (hnd : (dkeys en_data).Nodup) :
    translate_language apiKey (fun _ => GroqOutcome.apiFailure) lang_name
      keys_to_translate en_data [] = some en_data := by
  rw [translate_language_eq apiKey _ lang_name keys_to_translate en_data [] hne]
  congr 1
  apply mergeStep_empty_existing ?_ hnd
  intro q hq
  rcases mem_foldl_dictUnion _ hq with h | ⟨x, hx, hqx⟩
  · cases h
  · rw [translate_keys_apiFailure] at hqx
    rcases List.mem_map.mp hqx with ⟨k, hkmem, hkq⟩
    have hx2 : x.2 ∈ chunkList BATCH_SIZE (dkeys keys_to_translate) := by
      have hsnd := List.enum_map_snd (chunkList BATCH_SIZE (dkeys keys_to_translate))
      exact hsnd ▸ List.mem_map_of_mem Prod.snd hx
    have hkk : k ∈ dkeys keys_to_translate := by
      have hj : k ∈ (chunkList BATCH_SIZE (dkeys keys_to_translate)).flatten :=
        List.mem_flatten.mpr ⟨x.2, hx2, hkmem⟩
      rwa [chunkList_flatten] at hj
    obtain ⟨w, hw⟩ := dget_isSome_of_mem hkk
    have hqkw : q = (k, w) := by
      rw [← hkq]
      simp [dgetD, hw]
    rw [hqkw]
    exact hsub (k, w) (dget_mem hw)

/-- Claim C4, witness: the cited scenario — canonical
`{"a": "Hello", "b": "World"}`, empty existing locale, both keys pending,
provider failing throughout — merges to the canonical mapping exactly. -/
theorem C4_witness :
    ([("a", "Hello"), ("b", "World")] : Dict) ≠ [] ∧
    translate_language (some "key") (fun _ => GroqOutcome.apiFailure) "French"
      [("a", "Hello"), ("b", "World")] [("a", "Hello"), ("b", "World")] []
      = some [("a", "Hello"), ("b", "World")] :=
  ⟨by decide,
   C4_amended (some "key") "French" [("a", "Hello"), ("b", "World")]
     [("a", "Hello"), ("b", "World")] (by decide) (by decide) (by decide)⟩

/-- Claim C6: for a structurally valid provider response decoding to a
dictionary that is missing a requested key K, `translate_keys` maps K to
its original source-language value, and the merged result maps K to the
canonical value for K rather than omitting it; the batch is not
failed. -/
theorem C6_partial_response_repair
    (apiKey response target_language : String)
    (t keys_dict en_data existing_data full_en_data : Dict) (K v : String)
    (htrim : trimStr response ≠ "")
    (hparse : parseJsonFlatObj (strip_markdown_code_block (trimStr response)) = some t)
    (htnd : (dkeys t).Nodup)
    (hKt : K ∉ dkeys t)
    (hK : dget keys_dict K = some v)
    (hen : dget en_data K = some v) :
    dget (translate_keys (some apiKey) (GroqOutcome.content response) keys_dict
      target_language full_en_data existing_data) K = some v ∧
    dget (mergeStep existing_data
      (translate_keys (some apiKey) (GroqOutcome.content response) keys_dict
        target_language full_en_data existing_data) en_data) K = some v := by
  have hres : translate_keys (some apiKey) (GroqOutcome.content response) keys_dict
      target_language full_en_data existing_data =
      ((dkeys keys_dict).filter (fun k => !((dkeys t).contains k))).foldl
        (fun acc k => dictInsert acc k (dgetD keys_dict k "")) t := by
    unfold translate_keys
    rw [if_neg (dget_ne_nil hK)]
    rw [show call_groq (some apiKey) (GroqOutcome.content response)
        = some (trimStr response) from by
          unfold call_groq
          dsimp only
          rw [if_neg htrim]]
    dsimp only
    rw [hparse]
  have hKmem : K ∈ dkeys keys_dict := by
    have := dget_mem hK
    exact List.mem_map_of_mem Prod.fst this
  have hmiss : K ∈ (dkeys keys_dict).filter (fun k => !((dkeys t).contains k)) := by
    rw [List.mem_filter]
    refine ⟨hKmem, ?_⟩
    rw [contains_eq_false_of_not_mem hKt]
    rfl
  have hA : dget (translate_keys (some apiKey) (GroqOutcome.content response)
      keys_dict target_language full_en_data existing_data) K = some v := by
    rw [hres, dget_foldl_dictInsert_of_mem _ hmiss]
    simp [dgetD, hK]
  refine ⟨hA, ?_⟩
  have hKen : K ∈ dkeys en_data := by
    have := dget_mem hen
    exact List.mem_map_of_mem Prod.fst this
  rw [dget_mergeStep _ _ _ hKen]
  have hnodup : (dkeys (translate_keys (some apiKey) (GroqOutcome.content response)
      keys_dict target_language full_en_data existing_data)).Nodup := by
    rw [hres]
    exact nodup_dkeys_foldl_dictInsert _ _ htnd
  rw [dgetD, dget_dictUnion, dgetLast_eq_dget_of_nodup hnodup, hA]
  rfl

/-- Claim C6, witness: canonical `{"a": "Hello", "b": "World"}`, both
keys requested, response `{"a": "Hallo"}` missing key `b` — the
translation result and the merged result both map `b` to `World`. -/
theorem C6_witness :
    dget (translate_keys (some "key")
      (GroqOutcome.content "\x7b \"a\": \"Hallo\" \x7d")
      [("a", "Hello"), ("b", "World")] "German"
      [("a", "Hello"), ("b", "World")] []) "b" = some "World" ∧
    dget (mergeStep []
      (translate_keys (some "key")
        (GroqOutcome.content "\x7b \"a\": \"Hallo\" \x7d")
        [("a", "Hello"), ("b", "World")] "German"
        [("a", "Hello"), ("b", "World")] [])
      [("a", "Hello"), ("b", "World")]) "b" = some "World" :=
  C6_partial_response_repair "key" "\x7b \"a\": \"Hallo\" \x7d" "German"
    [("a", "Hallo")] [("a", "Hello"), ("b", "World")]
    [("a", "Hello"), ("b", "World")] [] [("a", "Hello"), ("b", "World")]
    "b" "World" (by decide) (by decide) (by decide) (by decide) (by decide)
    (by decide)

/-- Claim C7, counterexample: a provider response containing an
unrequested key `zzz` makes `translate_keys` return a mapping whose key
set is not a subset of the requested pending keys — the extra key is
passed through. -/
theorem C7_counterexample :
    dkeys (translate_keys (some "key")
        (GroqOutcome.content "\x7b \"a\": \"X\", \"zzz\": \"Y\" \x7d")
        [("a", "Hello")] "French" [("a", "Hello")] []) = ["a", "zzz"] ∧
    ¬ (dkeys (translate_keys (some "key")
        (GroqOutcome.content "\x7b \"a\": \"X\", \"zzz\": \"Y\" \x7d")
        [("a", "Hello")] "French" [("a", "Hello")] [])
      ⊆ dkeys [("a", "Hello")]) := by
  exact ⟨rfl, by decide⟩

/-- Claim C7, amended: the Batch Translator's result always contains
every requested pending key (whatever the provider does), but its key set
need not be restricted to the pending keys: unrequested keys in the
provider response are passed through, and only the canonical re-keying of
the merge step removes them. -/
theorem C7_amended (apiKey : Option String) (outcome : GroqOutcome)
    (keys_dict : Dict) (target_language : String)
    (full_en_data existing_target_data : Dict) {k : String}
    (hk : k ∈ dkeys keys_dict) :
    k ∈ dkeys (translate_keys apiKey outcome keys_dict target_language
      full_en_data existing_target_data) := by
  unfold translate_keys
  have hne : keys_dict ≠ [] := by
    intro h
    rw [h] at hk
    cases hk
  rw [if_neg hne]
  cases hcg : call_groq apiKey outcome with
  | none => exact hk
  | some response =>
    dsimp only
    cases hp : parseJsonFlatObj (strip_markdown_code_block response) with
    | none => exact hk
    | some translated =>
      show k ∈ dkeys (((dkeys keys_dict).filter
          (fun k => !((dkeys translated).contains k))).foldl
        (fun acc k => dictInsert acc k (dgetD keys_dict k "")) translated)
      by_cases ht : k ∈ dkeys translated
      · exact dkeys_foldl_dictInsert_of_mem_base _ _ ht
      · have hmiss : k ∈ (dkeys keys_dict).filter
            (fun k => !((dkeys translated).contains k)) := by
          rw [List.mem_filter]
          refine ⟨hk, ?_⟩
          rw [contains_eq_false_of_not_mem ht]
          rfl
        have hsome := dget_foldl_dictInsert_of_mem
          (fun k => dgetD keys_dict k "") hmiss translated
        by_contra hc
        rw [(dget_eq_none_iff _ _).mpr hc] at hsome
        cases hsome

/-- Claim C7, witness: the requested key `a` is present in the result of
a successful translation call. -/
theorem C7_witness :
    ("a" ∈ dkeys ([("a", "Hello"), ("b", "World")] : Dict)) ∧
    "a" ∈ dkeys (translate_keys (some "key")
      (GroqOutcome.content "\x7b \"a\": \"Hallo\" \x7d")
      [("a", "Hello"), ("b", "World")] "German"
      [("a", "Hello"), ("b", "World")] []) :=
  ⟨by decide,
   C7_amended (some "key") (GroqOutcome.content "\x7b \"a\": \"Hallo\" \x7d")
     [("a", "Hello"), ("b", "World")] "German"
     [("a", "Hello"), ("b", "World")] [] (by decide)⟩

/-- Claim C9, counterexample: with a manifest listing exactly `fr_FR` and
`de_DE` and only `en_US.json` (complete) and `fr_FR.json` (complete) on
disk, the validator reports two diagnostics, not exactly one — the
missing `de_DE.json` and the source file `en_US.json` itself being absent
from the manifest — so the claimed single-diagnostic outcome is false. -/
theorem C9_counterexample :
    ciValidator
        [("en_US.json", [("a", "Hello")]), ("fr_FR.json", [("a", "Bonjour")])]
        [("fr_FR", "French"), ("de_DE", "German")]
      = some (["de_DE.json not found.",
               "en_US.json not found in index.json."], false) ∧
    (ciValidator
        [("en_US.json", [("a", "Hello")]), ("fr_FR.json", [("a", "Bonjour")])]
        [("fr_FR", "French"), ("de_DE", "German")]).map (fun r => r.1.length)
      ≠ some 1 :=
  ⟨rfl, by decide⟩

/-- Claim C9, amended: when the manifest lists exactly `fr_FR` and
`de_DE` but only `fr_FR.json` (with all canonical keys) and the canonical
source file `en_US.json` exist on disk, the validator reports exactly two
diagnostics — one naming `de_DE` for the missing file and one naming
`en_US.json` as absent from the manifest — and exits with a failure
status. -/
theorem C9_amended :
    ∃ diags ok,
      ciValidator
          [("en_US.json", [("a", "Hello")]), ("fr_FR.json", [("a", "Bonjour")])]
          [("fr_FR", "French"), ("de_DE", "German")] = some (diags, ok) ∧
      diags.length = 2 ∧
      "de_DE.json not found." ∈ diags ∧
      "en_US.json not found in index.json." ∈ diags ∧
      ok = false :=
  ⟨["de_DE.json not found.", "en_US.json not found in index.json."], false,
   rfl, rfl, by decide, by decide, rfl⟩

/-- Claim C10: the file-to-manifest check of the Consistency Validator
applies to every `.json` file in the locale directory including the
canonical source file itself: whenever `en_US.json` is on disk but the
code `en_US` has no record in the manifest, the validator emits a
diagnostic for that file and concludes with a failure status. -/
theorem C10_source_file_needs_manifest_entry (disk : List (String × Dict))
    (index : List (String × String)) (diags : List String) (ok : Bool)
    (hrun : ciValidator disk index = some (diags, ok))
    (hmem : "en_US.json" ∈ dkeys disk)
    (hcode : "en_US" ∉ dkeys index) :
    "en_US.json not found in index.json." ∈ diags ∧ ok = false := by
  obtain ⟨m, hm⟩ := dget_isSome_of_mem hmem
  unfold ciValidator at hrun
  rw [hm] at hrun
  dsimp only at hrun
  injection hrun with hpair
  rw [Prod.mk.injEq] at hpair
  obtain ⟨hd, ho⟩ := hpair
  subst hd
  subst ho
  have hfil : "en_US.json" ∈ (disk.map Prod.fst).filter
      (fun f => strEndsWith f ".json" && !((dkeys index).contains (stemOf f))) := by
    rw [List.mem_filter]
    refine ⟨hmem, ?_⟩
    have h1 : stemOf "en_US.json" = "en_US" := rfl
    rw [h1, contains_eq_false_of_not_mem hcode]
    rfl
  have hmsg : "en_US.json" ++ " not found in index.json." ∈
      ((disk.map Prod.fst).filter
        (fun f => strEndsWith f ".json" && !((dkeys index).contains (stemOf f)))).map
        (fun f => f ++ " not found in index.json.") :=
    List.mem_map_of_mem _ hfil
  have heq : "en_US.json not found in index.json."
      = "en_US.json" ++ " not found in index.json." := rfl
  have hmem3 : "en_US.json not found in index.json." ∈
      ((disk.filter (fun e => strEndsWith e.1 ".json")).flatMap
        (fun e => ((dkeys m).filter (fun k => !((dkeys e.2).contains k))).map
          (fun k => e.1 ++ ": " ++ k ++ " not found.")) ++
       (index.filter
         (fun l => !((disk.map Prod.fst).contains (l.1 ++ ".json")))).map
         (fun l => l.1 ++ ".json not found.") ++
       ((disk.map Prod.fst).filter
         (fun f => strEndsWith f ".json" && !((dkeys index).contains (stemOf f)))).map
         (fun f => f ++ " not found in index.json.")) := by
    rw [heq]
    exact List.mem_append.mpr (Or.inr hmsg)
  exact ⟨hmem3, isEmpty_false_of_mem hmem3⟩

/-- Claim C10, witness: a disk holding only a complete `en_US.json` and
an empty manifest produce the `en_US.json` diagnostic and a failing
verdict. -/
theorem C10_witness :
    ("en_US.json" ∈ dkeys [("en_US.json", ([("a", "A")] : Dict))]) ∧
    ("en_US" ∉ dkeys ([] : List (String × String))) ∧
    "en_US.json not found in index.json."
      ∈ ["en_US.json not found in index.json."] ∧
    false = false :=
  ⟨by decide, by decide,
   (C10_source_file_needs_manifest_entry [("en_US.json", [("a", "A")])] []
     ["en_US.json not found in index.json."] false rfl (by decide) (by decide)).1,
   (C10_source_file_needs_manifest_entry [("en_US.json", [("a", "A")])] []
     ["en_US.json not found in index.json."] false rfl (by decide) (by decide)).2⟩
